import Mathlib

/-!
Verification of the `territory` grid-conquest simulation

Shallow embedding of the repository's grid state and update engines.

The repository contains two live update engines over structurally identical
state:

* `src/world.rs` (library crate): 16-bit troops, toroidal `get`, an
  unconditional `* 0.95` decay, capture when a shuffled neighbor's troops
  exceed the cell's, final fixup `owner == 0 → troops := 0`, and a buffered
  sequential loop writing into a cloned `buf`.
* `src/main.rs` (binary, its own `World`): 8-bit troops, clamped `get`,
  periodic decay on `(tick + i) % 5 == 0` scaled by the friendly-neighbor
  count, takeover over empires ranked by neighbor count with predicate
  `friendlies < 2 || rep.troops > troops`, final fixup
  `troops == 0 → owner := 0`, and a pure `map`/`collect` over the old cells.

Machine integers are `ℕ`; the `u8`/`u16` truncating casts appear explicitly.

Exact `f32` arithmetic in fixed point

Every floating-point value occurring in the update rules (troop counts below
2^24 cast to `f32`, the literals `0.95`, `0.1`, random draws from
`0.97..1.02`-style ranges, and single products of these) is a nonnegative
binary32 value `m * 2^(e-23)` with `-7 ≤ e`, hence exactly representable as an
integer at fixed scale `2^30`.  We represent such a value `v` by the natural
number `v * 2^30`.  One `f32` multiplication is: exact integer product (at
scale `2^60`) followed by rounding to nearest binary32 with ties to even
(`fround60`), which is exactly IEEE-754 `f32` multiplication on these inputs.
-/

/-- Computes `⌊log₂ n⌋` by repeated halving, with explicit
structural fuel `f` so that the kernel can evaluate it. -/
def nlog2Fuel : ℕ → ℕ → ℕ
  | 0, _ => 0
  | f + 1, n => if n ≤ 1 then 0 else nlog2Fuel f (n / 2) + 1

/-- The value `⌊log₂ n⌋` for `n < 2^128` (all numbers of the fixed-point pipeline fit). -/
def nlog2 (n : ℕ) : ℕ := nlog2Fuel 128 n

/-- Round-to-nearest with ties to even, given the floor `n`, the remainder
`rem` of the division and the half-way remainder value `half`. -/
def roundHalfEven (n rem half : ℕ) : ℕ :=
  if rem < half then n else if half < rem then n + 1 else if n % 2 = 0 then n else n + 1

/-- Round the nonnegative real `P / 2^60` to the nearest binary32 (ties to
even) and return the result at fixed scale `2^30`.  For `P ≥ 2^53` (value
`≥ 2^-7`) this is exactly IEEE-754 round-to-nearest-even; all values produced
by the program's update rules are `0` or lie in that range.  For the dead
regimes `P < 2^24` (value `< 2^-36`) and `2^24 ≤ P < 2^53` the result is the
correctly rounded mantissa scaled down with a flooring division, an
approximation that no reachable computation hits. -/
def fround60 (P : ℕ) : ℕ :=
  if P < 2 ^ 24 then 0
  else if 53 ≤ nlog2 P then
    roundHalfEven (P / 2 ^ (nlog2 P - 23)) (P % 2 ^ (nlog2 P - 23)) (2 ^ (nlog2 P - 24)) *
      2 ^ (nlog2 P - 53)
  else
    roundHalfEven (P / 2 ^ (nlog2 P - 23)) (P % 2 ^ (nlog2 P - 23)) (2 ^ (nlog2 P - 24)) /
      2 ^ (53 - nlog2 P)

/-- One `f32` multiplication of two fixed-scale-`2^30` values. -/
def f32mul (a b : ℕ) : ℕ := fround60 (a * b)

/-- Truncation of a fixed-scale value toward zero to an integer: the integer
part of an `as uN` cast. -/
def toNat30 (a : ℕ) : ℕ := a / 2 ^ 30

/-- Rust's saturating `as u16` cast from a nonnegative `f32` (fixed scale). -/
def asU16fx (a : ℕ) : ℕ := min 65535 (toNat30 a)

/-- Rust's saturating `as u8` cast from a nonnegative `f32` (fixed scale). -/
def asU8fx (a : ℕ) : ℕ := min 255 (toNat30 a)

/-- The cast `t as f32` for a troop count `t < 2^24`: exact, at fixed scale `2^30`. -/
def ofNat30 (t : ℕ) : ℕ := t * 2 ^ 30

/-- The `f32` literal `0.95` (mantissa `15938355`, exponent `-1`) at scale `2^30`. -/
def c095fx : ℕ := 15938355 * 2 ^ 6

/-- The `f32` literal `0.1` (mantissa `13421773`, exponent `-4`) at scale `2^30`. -/
def c010fx : ℕ := 13421773 * 2 ^ 3

/-- The `f32` literal `0.98` (mantissa `16441672`, exponent `-1`) at scale
`2^30`; used as a concrete admissible draw from the range `0.98..1.01`. -/
def c098fx : ℕ := 16441672 * 2 ^ 6

/-! ## Data model (`src/world.rs` and `src/main.rs`)

Both Rust files declare structurally identical `Cell`/`Empire`/`World` types
(they differ only in the troop width, `u16` vs `u8`, which here is the
unbounded `ℕ` with the width enforced by the explicit casts and, where needed,
by hypotheses `troops ≤ 65535` / `troops ≤ 255`). -/

/-- A grid cell: `owner == 0` means unclaimed. -/
structure Cell where
  owner : ℕ
  troops : ℕ
deriving DecidableEq, Repr

instance : Inhabited Cell :=
  ⟨{ owner := 0, troops := 0 }⟩

/-- An empire: positive id and an RGBA color. -/
structure Empire where
  id : ℕ
  color : ℕ × ℕ × ℕ × ℕ
deriving DecidableEq, Repr

/-- The grid state of `world.rs`: flat row-major cell list, dimensions,
empire registry and generation counter. -/
structure World where
  cells : List Cell
  width : ℕ
  height : ℕ
  empires : List Empire
  tick : ℕ
deriving DecidableEq, Repr

/-- The constructor `World::new(width, height)` from `world.rs`: all-unclaimed cells, empty
empire list, tick 0. -/
def World.new (width height : ℕ) : World :=
  { cells := List.replicate (width * height) default
    width := width
    height := height
    empires := []
    tick := 0 }

/-- The toroidal `World::get` from `world.rs`: index
`(y.rem_euclid(height)) * width + x.rem_euclid(width)`.  A zero dimension
makes `rem_euclid` panic in Rust; the panic, like an out-of-bounds index,
is modelled as `none`. -/
def World.get (w : World) (x y : ℤ) : Option Cell :=
  if w.width = 0 ∨ w.height = 0 then none
  else w.cells[(y % (w.height : ℤ)).toNat * w.width + (x % (w.width : ℤ)).toNat]?

/-- The write `World::set` from `world.rs`: asserts `0 ≤ x < width` and
`0 ≤ y < height`, then writes at row-major index `y * width + x`.  A failed
assertion or an out-of-bounds index panics, modelled as `none`. -/
def World.set (w : World) (x y : ℤ) (v : Cell) : Option World :=
  if 0 ≤ x ∧ x < (w.width : ℤ) ∧ 0 ≤ y ∧ y < (w.height : ℤ) then
    if y.toNat * w.width + x.toNat < w.cells.length then
      some { w with cells := w.cells.set (y.toNat * w.width + x.toNat) v }
    else none
  else none

/-- The eight Moore-neighborhood offsets, in the order both update engines
list them. -/
def neighborOffsets : List (ℤ × ℤ) :=
  [(-1, 0), (1, 0), (0, -1), (0, 1), (-1, -1), (1, -1), (-1, 1), (1, 1)]

/-! ## The `world.rs` update engine -/

/-- The eight neighbor lookups of `World::update` in `world.rs` (via the
toroidal `get`). -/
def neighborGetsW (w : World) (x y : ℤ) : List (Option Cell) :=
  neighborOffsets.map fun p => w.get (x + p.1) (y + p.2)

/-- The shuffle `neighbors.shuffle(rng)` on the 8-entry array, modelled by an
index-reordering function drawn by the oracle (actual draws are bijections;
every theorem quantifies over all reorderings, which subsumes them). -/
def shuffleBy (f : Fin 8 → Fin 8) (l : List (Option Cell)) : List (Option Cell) :=
  (List.finRange 8).map fun k => l.getD (f k) none

/-- The random draws one cell of `world.rs`'s update consumes: the shuffle
reordering and (at most one) `gen_range(0.98..1.01)` multiplier, at fixed
scale `2^30`. -/
structure DrawW where
  perm : Fin 8 → Fin 8
  r : ℕ

/-- The capture scaling `(neighbor.troops as f32 * rng.gen_range(0.98..1.01)) as u16`. -/
def scaleW (t r : ℕ) : ℕ := asU16fx (f32mul (ofNat30 t) r)

/-- The decay step `cell.troops = (cell.troops as f32 * 0.95) as u16` of
`world.rs`, applied unconditionally on every generation. -/
def decayW (c : Cell) : Cell :=
  { c with troops := asU16fx (f32mul (ofNat30 c.troops) c095fx) }

/-- The takeover loop of `world.rs`: walk the shuffled flattened neighbors
and fire the first of the two `break`ing branches that applies. -/
def takeoverW (r : ℕ) : Cell → List Cell → Cell
  | c, [] => c
  | c, n :: rest =>
    if n.owner = c.owner ∧ c.troops < n.troops then
      { owner := n.owner, troops := scaleW n.troops r }
    else if c.troops < n.troops then
      { owner := n.owner, troops := scaleW n.troops r }
    else takeoverW r c rest

/-- The per-cell body of `World::update` in `world.rs`: gather and shuffle
neighbors, decay, takeover, then `if cell.owner == 0 { cell.troops = 0 }`. -/
def cellStepW (w : World) (d : DrawW) (x y : ℤ) (c : Cell) : Cell :=
  let ns := (shuffleBy d.perm (neighborGetsW w x y)).reduceOption
  let c1 := decayW c
  let c2 := takeoverW d.r c1 ns
  if c2.owner = 0 then { owner := 0, troops := 0 } else c2

/-- One cell of `world.rs`'s update: `*self.get(x, y).unwrap()` (the only
fallible read) followed by the infallible per-cell body. -/
def World.updateCellW (w : World) (d : DrawW) (x y : ℤ) : Option Cell :=
  (w.get x y).map (cellStepW w d x y)

/-- The inner (`y`) loop of `World::update` in `world.rs` for a fixed column
`x`: step each cell and write it into the buffer at `y * width + x`. -/
def colFoldW (w : World) (o : ℕ → DrawW) (x : ℕ) (b : List Cell) : Option (List Cell) :=
  (List.range w.height).foldlM
    (fun b2 y => do
      let c ← w.updateCellW (o (y * w.width + x)) (x : ℤ) (y : ℤ)
      pure (b2.set (y * w.width + x) c))
    b

/-- The loop `World::update` from `world.rs`: clone the cells into `buf`, loop over
`x` then `y` writing the stepped cell at `buf[y * width + x]`, install `buf`,
increment `tick`.  The oracle is keyed by the written index. -/
def World.updateW (w : World) (o : ℕ → DrawW) : Option World := do
  let buf ← (List.range w.width).foldlM (fun b x => colFoldW w o x b) w.cells
  pure { w with cells := buf, tick := w.tick + 1 }

/-- Iterated `world.rs` updates, with one oracle per generation. -/
def World.iterW : ℕ → (ℕ → ℕ → DrawW) → World → Option World
  | 0, _, w => some w
  | n + 1, os, w => (w.updateW (os n)).bind (World.iterW n os)

/-- The per-cell transition of `world.rs` as a function of the row-major
index into the *previous* snapshot. -/
def stepAtW (w : World) (o : ℕ → DrawW) (i : ℕ) : Cell :=
  cellStepW w (o i) ((i % w.width : ℕ) : ℤ) ((i / w.width : ℕ) : ℤ)
    (w.cells.getD i default)

/-- The spec's description of `advance` as a pure per-cell map: every cell of
the next generation is the per-cell transition applied to the *previous*
snapshot only.  Stated from the spec's words, to be compared with the
buffered loop `World.updateW`. -/
def World.updateMapW (w : World) (o : ℕ → DrawW) : World :=
  { w with
    cells := (List.range w.cells.length).map fun i => stepAtW w o i
    tick := w.tick + 1 }

/-! ## The `main.rs` update engine -/

/-- The clamped `World::get` from `main.rs`: out-of-range coordinates return
`None`; an out-of-bounds index (unreachable for well-formed grids) is
modelled as `none`. -/
def World.getM (w : World) (x y : ℤ) : Option Cell :=
  if x < (w.width : ℤ) ∧ y < (w.height : ℤ) ∧ 0 ≤ x ∧ 0 ≤ y then
    w.cells[y.toNat * w.width + x.toNat]?
  else none

/-- The flattened neighbor list of `main.rs` (same offsets, clamped `get`,
no shuffle). -/
def neighborsM (w : World) (x y : ℤ) : List Cell :=
  (neighborOffsets.map fun p => w.getM (x + p.1) (y + p.2)).reduceOption

/-- The count `num_of_friendlies`: 0 for an unclaimed cell, otherwise the number of
neighbors sharing the cell's owner. -/
def friendliesM (c : Cell) (ns : List Cell) : ℕ :=
  if c.owner = 0 then 0 else ns.countP fun v => v.owner == c.owner

/-- The decay step of `main.rs`: on generations with `(tick + i) % 5 == 0`,
`cell.troops = ((troops as f32) * ((num_of_friendlies as f32) * 0.1)) as u8`;
otherwise no change. -/
def decayM (tick i nf : ℕ) (c : Cell) : Cell :=
  if (tick + i) % 5 = 0 then
    { c with troops := asU8fx (f32mul (ofNat30 c.troops) (f32mul (ofNat30 nf) c010fx)) }
  else c

/-- The random draws one cell of `main.rs`'s update consumes: for the `j`-th
empire, `pick j` selects the uniformly chosen representative among that
empire's neighbors (reduced mod their number), and `r` is the (at most one)
`gen_range(0.97..1.02)` multiplier at fixed scale `2^30`. -/
structure DrawM where
  pick : ℕ → ℕ
  r : ℕ

/-- The contender list of `main.rs`: for every empire, the uniformly chosen
representative neighbor of that empire together with the empire's neighbor
count; empires without neighbors are dropped. -/
def contendersM (w : World) (d : DrawM) (ns : List Cell) : List (ℕ × Cell × ℕ) :=
  (w.empires.enum.map fun je =>
      let fs := ns.filter fun v => v.owner == je.2.id
      (je.2.id, fs[d.pick je.1 % fs.length]?, fs.length)).filterMap
    fun v => (v.2.1).map fun rep => (v.1, rep, v.2.2)

/-- Stable insertion of an entry after all entries with a key `≤` its own. -/
def insertByCnt (a : ℕ × Cell × ℕ) : List (ℕ × Cell × ℕ) → List (ℕ × Cell × ℕ)
  | [] => [a]
  | b :: l => if b.2.2 ≤ a.2.2 then b :: insertByCnt a l else a :: b :: l

/-- Stable ascending sort by neighbor count, modelling itertools'
`sorted_by_key(|v| v.2)` (a stable sort; stable sorts agree pointwise). -/
def sortByCnt : List (ℕ × Cell × ℕ) → List (ℕ × Cell × ℕ)
  | [] => []
  | a :: l => insertByCnt a (sortByCnt l)

/-- The ranking `sorted_by_key(|v| v.2).rev()`: contenders ranked by descending
neighbor count. -/
def rankedM (w : World) (d : DrawM) (ns : List Cell) : List (ℕ × Cell × ℕ) :=
  (sortByCnt (contendersM w d ns)).reverse

/-- The takeover loop of `main.rs`: walk the ranked contenders and fire the
first with `(num_of_friendlies < 2 || enemy.1.troops > cell.troops) &&
enemy.2 >= 1`. -/
def takeoverM (nf r : ℕ) : Cell → List (ℕ × Cell × ℕ) → Cell
  | c, [] => c
  | c, e :: rest =>
    if (nf < 2 ∨ c.troops < e.2.1.troops) ∧ 1 ≤ e.2.2 then
      { owner := e.1, troops := asU8fx (f32mul (ofNat30 e.2.1.troops) r) }
    else takeoverM nf r c rest

/-- The per-cell body of `main.rs`'s update at index `i` with old cell `c`:
neighbors, friendliness, periodic decay, ranked takeover, then
`if cell.troops == 0 { cell.owner = 0 }`. -/
def World.updateCellM (w : World) (d : DrawM) (i : ℕ) (c : Cell) : Cell :=
  let x : ℤ := (i % w.width : ℕ)
  let y : ℤ := (i / w.width : ℕ)
  let ns := neighborsM w x y
  let nf := friendliesM c ns
  let c1 := decayM w.tick i nf c
  let c2 := takeoverM nf d.r c1 (rankedM w d ns)
  if c2.troops = 0 then { c2 with owner := 0 } else c2

/-- The map `World::update` from `main.rs`: map the per-cell body over the
enumerated old cells (the `collect` finishes before `self.cells` is
replaced), increment `tick`. -/
def World.updateM (w : World) (o : ℕ → DrawM) : World :=
  { w with
    cells := w.cells.enum.map fun ic => w.updateCellM (o ic.1) ic.1 ic.2
    tick := w.tick + 1 }

/-! ## Facts about the fixed-point `f32` arithmetic -/

theorem nlog2Fuel_correct :
    ∀ f n, 1 ≤ n → n < 2 ^ f →
      2 ^ nlog2Fuel f n ≤ n ∧ n < 2 ^ (nlog2Fuel f n + 1) := by
  intro f
  induction f with
  | zero => intro n h1 h2; simp at h2; omega
  | succ f ih =>
    intro n h1 h2
    rw [nlog2Fuel]
    by_cases hn : n ≤ 1
    · simp only [if_pos hn]
      have : n = 1 := by omega
      subst this
      norm_num
    · simp only [if_neg hn]
      have hpow : (2 : ℕ) ^ (f + 1) = 2 * 2 ^ f := by ring
      have h2' : n / 2 < 2 ^ f := by omega
      have h1' : 1 ≤ n / 2 := by omega
      obtain ⟨a, b⟩ := ih (n / 2) h1' h2'
      have e1 : (2 : ℕ) ^ (nlog2Fuel f (n / 2) + 1) = 2 * 2 ^ nlog2Fuel f (n / 2) := by ring
      have e2 : (2 : ℕ) ^ (nlog2Fuel f (n / 2) + 1 + 1) =
          2 * 2 ^ (nlog2Fuel f (n / 2) + 1) := by ring
      constructor
      · omega
      · omega

theorem nlog2_correct (n : ℕ) (h1 : 1 ≤ n) (h2 : n < 2 ^ 128) :
    2 ^ nlog2 n ≤ n ∧ n < 2 ^ (nlog2 n + 1) :=
  nlog2Fuel_correct 128 n h1 h2

theorem roundHalfEven_ge (q rem half : ℕ) : q ≤ roundHalfEven q rem half := by
  unfold roundHalfEven
  split_ifs <;> omega

theorem roundHalfEven_le (q rem half : ℕ) : roundHalfEven q rem half ≤ q + 1 := by
  unfold roundHalfEven
  split_ifs <;> omega

theorem roundHalfEven_mono (q rem1 rem2 half : ℕ) (h : rem1 ≤ rem2) :
    roundHalfEven q rem1 half ≤ roundHalfEven q rem2 half := by
  unfold roundHalfEven
  split_ifs <;> omega

theorem roundHalfEven_mul_bounds (P d half : ℕ) (hd : d = 2 * half) (hhalf : 0 < half) :
    roundHalfEven (P / d) (P % d) half * d ≤ P + half ∧
      P ≤ roundHalfEven (P / d) (P % d) half * d + half := by
  have h0 : 0 < d := by omega
  have hqd : P / d * d + P % d = P := Nat.div_add_mod' P d
  have hrem : P % d < d := Nat.mod_lt _ h0
  have hsucc : (P / d + 1) * d = P / d * d + d := by ring
  unfold roundHalfEven
  split_ifs <;> omega

theorem fround60_le (P : ℕ) (h2 : P < 2 ^ 128) :
    fround60 P * 2 ^ 30 ≤ P + P / 2 ^ 24 := by
  unfold fround60
  by_cases hsmall : P < 2 ^ 24
  · rw [if_pos hsmall]
    simp
  · rw [if_neg hsmall]
    obtain ⟨hlo, hhi⟩ := nlog2_correct P (by omega) h2
    set k := nlog2 P with hk
    have hk24 : 24 ≤ k := by
      by_contra hcon
      have : k + 1 ≤ 24 := by omega
      have : (2 : ℕ) ^ (k + 1) ≤ 2 ^ 24 := Nat.pow_le_pow_right (by norm_num) this
      omega
    have hd : 2 ^ (k - 23) = 2 * 2 ^ (k - 24) := by
      have : k - 23 = (k - 24) + 1 := by omega
      rw [this, pow_succ]
      ring
    obtain ⟨hub, hlb⟩ :=
      roundHalfEven_mul_bounds P (2 ^ (k - 23)) (2 ^ (k - 24)) hd
        (pow_pos (by norm_num) _)
    have hhalf_le : 2 ^ (k - 24) ≤ P / 2 ^ 24 := by
      have e : (2 : ℕ) ^ (k - 24) = 2 ^ k / 2 ^ 24 :=
        (Nat.pow_div (by omega) (by norm_num)).symm
      rw [e]
      exact Nat.div_le_div_right hlo
    set m := roundHalfEven (P / 2 ^ (k - 23)) (P % 2 ^ (k - 23)) (2 ^ (k - 24)) with hm
    by_cases hk53 : 53 ≤ k
    · simp only [if_pos hk53]
      have e : m * 2 ^ (k - 53) * 2 ^ 30 = m * 2 ^ (k - 23) := by
        rw [mul_assoc, ← pow_add]
        congr 2
        omega
      rw [e]
      omega
    · simp only [if_neg hk53]
      have he : (2 : ℕ) ^ 30 = 2 ^ (53 - k) * 2 ^ (k - 23) := by
        rw [← pow_add]
        congr 1
        omega
      have hdiv : m / 2 ^ (53 - k) * 2 ^ 30 ≤ m * 2 ^ (k - 23) := by
        calc m / 2 ^ (53 - k) * 2 ^ 30
            = m / 2 ^ (53 - k) * 2 ^ (53 - k) * 2 ^ (k - 23) := by rw [he]; ring
          _ ≤ m * 2 ^ (k - 23) :=
              Nat.mul_le_mul_right _ (Nat.div_mul_le_self m _)
      omega

theorem fround60_ge (P : ℕ) (h1 : 2 ^ 53 ≤ P) (h2 : P < 2 ^ 128) :
    P ≤ fround60 P * 2 ^ 30 + P / 2 ^ 24 := by
  unfold fround60
  have hsmall : ¬ P < 2 ^ 24 := by
    have : (2 : ℕ) ^ 24 ≤ 2 ^ 53 := Nat.pow_le_pow_right (by norm_num) (by norm_num)
    omega
  simp only [if_neg hsmall]
  obtain ⟨hlo, hhi⟩ := nlog2_correct P (by omega) h2
  set k := nlog2 P with hk
  have hk53 : 53 ≤ k := by
    by_contra hcon
    have : k + 1 ≤ 53 := by omega
    have : (2 : ℕ) ^ (k + 1) ≤ 2 ^ 53 := Nat.pow_le_pow_right (by norm_num) this
    omega
  have hd : 2 ^ (k - 23) = 2 * 2 ^ (k - 24) := by
    have : k - 23 = (k - 24) + 1 := by omega
    rw [this, pow_succ]
    ring
  obtain ⟨hub, hlb⟩ :=
    roundHalfEven_mul_bounds P (2 ^ (k - 23)) (2 ^ (k - 24)) hd (pow_pos (by norm_num) _)
  have hhalf_le : 2 ^ (k - 24) ≤ P / 2 ^ 24 := by
    have e : (2 : ℕ) ^ (k - 24) = 2 ^ k / 2 ^ 24 :=
      (Nat.pow_div (by omega) (by norm_num)).symm
    rw [e]
    exact Nat.div_le_div_right hlo
  set m := roundHalfEven (P / 2 ^ (k - 23)) (P % 2 ^ (k - 23)) (2 ^ (k - 24)) with hm
  simp only [if_pos hk53]
  have e : m * 2 ^ (k - 53) * 2 ^ 30 = m * 2 ^ (k - 23) := by
    rw [mul_assoc, ← pow_add]
    congr 2
    omega
  rw [e]
  omega

theorem fround60_mono (P Q : ℕ) (h1 : 2 ^ 53 ≤ P) (hPQ : P ≤ Q) (h2 : Q < 2 ^ 128) :
    fround60 P ≤ fround60 Q := by
  have h24 : (2 : ℕ) ^ 24 ≤ 2 ^ 53 := Nat.pow_le_pow_right (by norm_num) (by norm_num)
  have hsP : ¬ P < 2 ^ 24 := by omega
  have hsQ : ¬ Q < 2 ^ 24 := by omega
  obtain ⟨hloP, hhiP⟩ := nlog2_correct P (by omega) (by omega)
  obtain ⟨hloQ, hhiQ⟩ := nlog2_correct Q (by omega) h2
  set kP := nlog2 P with hkP
  set kQ := nlog2 Q with hkQ
  have hkP53 : 53 ≤ kP := by
    by_contra hcon
    have : (2 : ℕ) ^ (kP + 1) ≤ 2 ^ 53 := Nat.pow_le_pow_right (by norm_num) (by omega)
    omega
  have hkQ53 : 53 ≤ kQ := by
    by_contra hcon
    have : (2 : ℕ) ^ (kQ + 1) ≤ 2 ^ 53 := Nat.pow_le_pow_right (by norm_num) (by omega)
    omega
  have hkPQ : kP ≤ kQ := by
    by_contra hcon
    have : (2 : ℕ) ^ (kQ + 1) ≤ 2 ^ kP := Nat.pow_le_pow_right (by norm_num) (by omega)
    omega
  rw [fround60, if_neg hsP, if_pos hkP53, fround60, if_neg hsQ, if_pos hkQ53]
  rw [← hkP, ← hkQ]
  rcases eq_or_lt_of_le hkPQ with heq | hlt
  · rw [← heq]
    apply mul_le_mul_right'
    rcases Nat.lt_or_ge (P / 2 ^ (kP - 23)) (Q / 2 ^ (kP - 23)) with hq | hq
    · calc roundHalfEven (P / 2 ^ (kP - 23)) (P % 2 ^ (kP - 23)) (2 ^ (kP - 24))
          ≤ P / 2 ^ (kP - 23) + 1 := roundHalfEven_le _ _ _
        _ ≤ Q / 2 ^ (kP - 23) := by omega
        _ ≤ roundHalfEven (Q / 2 ^ (kP - 23)) (Q % 2 ^ (kP - 23)) (2 ^ (kP - 24)) :=
            roundHalfEven_ge _ _ _
    · have hqe : P / 2 ^ (kP - 23) = Q / 2 ^ (kP - 23) :=
        le_antisymm (Nat.div_le_div_right hPQ) hq
      have hremP := Nat.div_add_mod' P (2 ^ (kP - 23))
      have hremQ := Nat.div_add_mod' Q (2 ^ (kP - 23))
      rw [hqe] at hremP
      have hrem : P % 2 ^ (kP - 23) ≤ Q % 2 ^ (kP - 23) := by omega
      rw [hqe]
      exact roundHalfEven_mono _ _ _ _ hrem
  · have hmP_le :
        roundHalfEven (P / 2 ^ (kP - 23)) (P % 2 ^ (kP - 23)) (2 ^ (kP - 24)) ≤ 2 ^ 24 := by
      have hdiv : P / 2 ^ (kP - 23) < 2 ^ 24 := by
        rw [Nat.div_lt_iff_lt_mul (pow_pos (by norm_num) _)]
        calc P < 2 ^ (kP + 1) := hhiP
          _ = 2 ^ 24 * 2 ^ (kP - 23) := by rw [← pow_add]; congr 1; omega
      have := roundHalfEven_le (P / 2 ^ (kP - 23)) (P % 2 ^ (kP - 23)) (2 ^ (kP - 24))
      omega
    have hmQ_ge :
        2 ^ 23 ≤ roundHalfEven (Q / 2 ^ (kQ - 23)) (Q % 2 ^ (kQ - 23)) (2 ^ (kQ - 24)) := by
      have hdiv : 2 ^ 23 ≤ Q / 2 ^ (kQ - 23) := by
        rw [Nat.le_div_iff_mul_le (pow_pos (by norm_num) _)]
        calc (2 : ℕ) ^ 23 * 2 ^ (kQ - 23) = 2 ^ kQ := by rw [← pow_add]; congr 1; omega
          _ ≤ Q := hloQ
      have := roundHalfEven_ge (Q / 2 ^ (kQ - 23)) (Q % 2 ^ (kQ - 23)) (2 ^ (kQ - 24))
      omega
    calc roundHalfEven (P / 2 ^ (kP - 23)) (P % 2 ^ (kP - 23)) (2 ^ (kP - 24)) * 2 ^ (kP - 53)
        ≤ 2 ^ 24 * 2 ^ (kP - 53) := mul_le_mul_right' hmP_le _
      _ = 2 ^ (kP - 29) := by rw [← pow_add]; congr 1; omega
      _ ≤ 2 ^ (kQ - 30) := Nat.pow_le_pow_right (by norm_num) (by omega)
      _ = 2 ^ 23 * 2 ^ (kQ - 53) := by rw [← pow_add]; congr 1; omega
      _ ≤ roundHalfEven (Q / 2 ^ (kQ - 23)) (Q % 2 ^ (kQ - 23)) (2 ^ (kQ - 24)) *
            2 ^ (kQ - 53) := mul_le_mul_right' hmQ_ge _

theorem fround60_zero : fround60 0 = 0 := by decide

theorem f32mul_zero_left (b : ℕ) : f32mul 0 b = 0 := by
  rw [f32mul, zero_mul]
  decide

theorem f32mul_zero_right (a : ℕ) : f32mul a 0 = 0 := by
  rw [f32mul, mul_zero]
  decide

theorem asU8fx_zero : asU8fx 0 = 0 := by decide

theorem asU16fx_zero : asU16fx 0 = 0 := by decide

theorem asU8fx_le_255 (a : ℕ) : asU8fx a ≤ 255 := min_le_left _ _

theorem asU16fx_le_65535 (a : ℕ) : asU16fx a ≤ 65535 := min_le_left _ _

theorem ofNat30_zero : ofNat30 0 = 0 := by decide

/-- The inner decay factor `(nf as f32) * 0.1` of `main.rs`, checked on all
nine possible friendliness counts: at most `≈ 0.80000001` at scale `2^30`. -/
theorem decay_inner_le_all : ∀ nf ≤ 8, f32mul (ofNat30 nf) c010fx ≤ 858993523 := by
  decide

/-- For at least one friendly neighbor the inner decay factor is at least
`2^-5` (scale `2^30`): checked on all eight values. -/
theorem decay_inner_ge_all : ∀ nf ≤ 8, 1 ≤ nf → 2 ^ 25 ≤ f32mul (ofNat30 nf) c010fx := by
  decide

/-- The inner decay factor grows with the friendliness count. -/
theorem decay_inner_mono_all :
    ∀ b ≤ 8, ∀ a ≤ b, f32mul (ofNat30 a) c010fx ≤ f32mul (ofNat30 b) c010fx := by
  decide

/-- A positive troop count multiplied by an `f32` factor of at most
`≈ 0.80000001` strictly shrinks (before the `as u8` truncation). -/
theorem decay_outer_lt (t I : ℕ) (ht1 : 1 ≤ t) (ht : t ≤ 65535) (hI : I ≤ 858993523) :
    f32mul (ofNat30 t) I < t * 2 ^ 30 := by
  rw [f32mul, ofNat30]
  have hPle : t * 2 ^ 30 * I ≤ t * (858993523 * 2 ^ 30) := by
    calc t * 2 ^ 30 * I ≤ t * 2 ^ 30 * 858993523 :=
        Nat.mul_le_mul_left _ hI
      _ = t * (858993523 * 2 ^ 30) := by ring
  have hlt : t * 2 ^ 30 * I < 2 ^ 128 := by
    calc t * 2 ^ 30 * I ≤ t * (858993523 * 2 ^ 30) := hPle
      _ ≤ 65535 * (858993523 * 2 ^ 30) := Nat.mul_le_mul_right _ ht
      _ < 2 ^ 128 := by norm_num
  have hub := fround60_le (t * 2 ^ 30 * I) hlt
  have hdiv : t * 2 ^ 30 * I / 2 ^ 24 ≤ t * (858993523 * 2 ^ 6) := by
    have e : t * 2 ^ 30 * I = t * 2 ^ 6 * I * 2 ^ 24 := by ring
    rw [e, Nat.mul_div_cancel _ (by norm_num)]
    calc t * 2 ^ 6 * I ≤ t * 2 ^ 6 * 858993523 := Nat.mul_le_mul_left _ hI
      _ = t * (858993523 * 2 ^ 6) := by ring
  have hkey : fround60 (t * 2 ^ 30 * I) * 2 ^ 30 < t * 2 ^ 30 * 2 ^ 30 := by
    have hbound : t * (858993523 * 2 ^ 30) + t * (858993523 * 2 ^ 6) =
        t * (858993523 * 2 ^ 30 + 858993523 * 2 ^ 6) := by ring
    have hfinal : t * (858993523 * 2 ^ 30 + 858993523 * 2 ^ 6) < t * (2 ^ 30 * 2 ^ 30) :=
      mul_lt_mul_of_pos_left (by norm_num) (show (0 : ℕ) < t by omega)
    have e2 : t * (2 ^ 30 * 2 ^ 30) = t * 2 ^ 30 * 2 ^ 30 := by ring
    omega
  exact Nat.lt_of_mul_lt_mul_right hkey

/-- On a selected generation, the `main.rs` decay never increases troops. -/
theorem decayM_troops_le (tick i nf : ℕ) (c : Cell) (hnf : nf ≤ 8)
    (ht : c.troops ≤ 65535) : (decayM tick i nf c).troops ≤ c.troops := by
  rw [decayM]
  split_ifs with h
  · simp only
    by_cases ht0 : c.troops = 0
    · rw [ht0, ofNat30_zero, f32mul_zero_left, asU8fx_zero]
    · have h1 : 1 ≤ c.troops := by omega
      have hlt := decay_outer_lt c.troops _ h1 ht (decay_inner_le_all nf hnf)
      have hdivlt :
          f32mul (ofNat30 c.troops) (f32mul (ofNat30 nf) c010fx) / 2 ^ 30 < c.troops :=
        Nat.div_lt_of_lt_mul (by omega)
      calc asU8fx (f32mul (ofNat30 c.troops) (f32mul (ofNat30 nf) c010fx))
          ≤ f32mul (ofNat30 c.troops) (f32mul (ofNat30 nf) c010fx) / 2 ^ 30 :=
            min_le_right _ _
        _ ≤ c.troops := by omega
  · exact le_refl _

/-- More friendly support gives a weaker `main.rs` decay. -/
theorem decayM_troops_mono (tick i a b : ℕ) (c : Cell) (hab : a ≤ b) (hb : b ≤ 8)
    (ht : c.troops ≤ 65535) :
    (decayM tick i a c).troops ≤ (decayM tick i b c).troops := by
  rw [decayM, decayM]
  split_ifs with h
  · simp only
    by_cases ht0 : c.troops = 0
    · rw [ht0, ofNat30_zero, f32mul_zero_left, f32mul_zero_left, asU8fx_zero]
    · by_cases ha0 : a = 0
      · rw [ha0, ofNat30_zero, f32mul_zero_left, f32mul_zero_right, asU8fx_zero]
        exact Nat.zero_le _
      · apply min_le_min (le_refl 255)
        apply Nat.div_le_div_right
        rw [f32mul, f32mul]
        apply fround60_mono
        · have hIa := decay_inner_ge_all a (by omega) (by omega)
          calc (2 : ℕ) ^ 53 = 2 ^ 28 * 2 ^ 25 := by norm_num
            _ ≤ ofNat30 c.troops * (2 ^ 25) := by
                apply Nat.mul_le_mul_right
                rw [ofNat30]
                calc (2 : ℕ) ^ 28 ≤ 1 * 2 ^ 30 := by norm_num
                  _ ≤ c.troops * 2 ^ 30 := Nat.mul_le_mul_right _ (by omega)
            _ ≤ ofNat30 c.troops * f32mul (ofNat30 a) c010fx :=
                Nat.mul_le_mul_left _ hIa
        · exact Nat.mul_le_mul_left _ (decay_inner_mono_all b hb a hab)
        · have hIb := decay_inner_le_all b hb
          calc ofNat30 c.troops * f32mul (ofNat30 b) c010fx
              ≤ ofNat30 c.troops * 858993523 := Nat.mul_le_mul_left _ hIb
            _ ≤ 65535 * 2 ^ 30 * 858993523 := by
                apply Nat.mul_le_mul_right
                rw [ofNat30]
                exact Nat.mul_le_mul_right _ ht
            _ < 2 ^ 128 := by norm_num
  · exact le_refl _

/-- With zero friendly support, a selected `main.rs` decay wipes the troops
to the floor `0`. -/
theorem decayM_zero_friendlies (tick i : ℕ) (c : Cell) (h : (tick + i) % 5 = 0) :
    (decayM tick i 0 c).troops = 0 := by
  rw [decayM, if_pos h]
  simp only
  rw [ofNat30_zero, f32mul_zero_left, f32mul_zero_right, asU8fx_zero]

/-- On a non-selected generation the `main.rs` decay is the identity. -/
theorem decayM_not_selected (tick i nf : ℕ) (c : Cell) (h : (tick + i) % 5 ≠ 0) :
    decayM tick i nf c = c := by
  rw [decayM, if_neg h]

/-! ## The buffered loop of `world.rs` computes a pure per-cell map -/

theorem foldlM_option_inv {α β : Type} (f : β → α → Option β) (Inv : β → Prop)
    (hf : ∀ b a b', Inv b → f b a = some b' → Inv b') :
    ∀ (l : List α) (b b' : β), List.foldlM f b l = some b' → Inv b → Inv b' := by
  intro l
  induction l with
  | nil =>
    intro b b' h hb
    simp only [List.foldlM_nil] at h
    cases h
    exact hb
  | cons a l ih =>
    intro b b' h hb
    rw [List.foldlM_cons] at h
    cases hfa : f b a with
    | none => rw [hfa] at h; simp at h
    | some b2 =>
      rw [hfa] at h
      simp at h
      exact ih b2 b' h (hf b a b2 hb hfa)

theorem rowmaj_mod (wd x y : ℕ) (hx : x < wd) : (y * wd + x) % wd = x := by
  rw [Nat.mul_comm, Nat.mul_add_mod]
  exact Nat.mod_eq_of_lt hx

theorem rowmaj_div (wd x y : ℕ) (hx : x < wd) : (y * wd + x) / wd = y := by
  rw [Nat.mul_comm, Nat.mul_add_div (by omega)]
  rw [Nat.div_eq_of_lt hx]
  omega

theorem rowmaj_inj (wd x x' y y' : ℕ) (hx : x < wd) (hx' : x' < wd)
    (h : y * wd + x = y' * wd + x') : x = x' ∧ y = y' := by
  have h1 : (y * wd + x) % wd = x := rowmaj_mod wd x y hx
  have h2 : (y' * wd + x') % wd = x' := rowmaj_mod wd x' y' hx'
  have h3 : (y * wd + x) / wd = y := rowmaj_div wd x y hx
  have h4 : (y' * wd + x') / wd = y' := rowmaj_div wd x' y' hx'
  rw [h] at h1 h3
  omega

theorem rowmaj_lt (w : World) (x y : ℕ) (hx : x < w.width) (hy : y < w.height)
    (hlen : w.cells.length = w.width * w.height) :
    y * w.width + x < w.cells.length := by
  rw [hlen]
  calc y * w.width + x < y * w.width + w.width := by omega
    _ = (y + 1) * w.width := by ring
    _ ≤ w.height * w.width := Nat.mul_le_mul_right _ (by omega)
    _ = w.width * w.height := Nat.mul_comm _ _

theorem updateCellW_eq_step (w : World) (o : ℕ → DrawW) (x y : ℕ)
    (hx : x < w.width) (hy : y < w.height)
    (hlen : w.cells.length = w.width * w.height) :
    w.updateCellW (o (y * w.width + x)) (x : ℤ) (y : ℤ) =
      some (stepAtW w o (y * w.width + x)) := by
  have hw0 : w.width ≠ 0 := by omega
  have hh0 : w.height ≠ 0 := by omega
  have hxe : ((x : ℤ) % (w.width : ℤ)).toNat = x := by
    rw [Int.emod_eq_of_lt (by positivity) (by exact_mod_cast hx)]
    exact Int.toNat_natCast x
  have hye : ((y : ℤ) % (w.height : ℤ)).toNat = y := by
    rw [Int.emod_eq_of_lt (by positivity) (by exact_mod_cast hy)]
    exact Int.toNat_natCast y
  have hidx : y * w.width + x < w.cells.length := rowmaj_lt w x y hx hy hlen
  rw [World.updateCellW, World.get, if_neg (by omega)]
  rw [hye, hxe, List.getElem?_eq_getElem hidx, Option.map_some']
  rw [stepAtW, rowmaj_mod _ _ _ hx, rowmaj_div _ _ _ hx,
    List.getD_eq_getElem _ _ hidx]

theorem setFold_aux (g : ℕ → ℕ) (v : ℕ → Cell) (step : List Cell → ℕ → Option (List Cell)) :
    ∀ (l : List ℕ) (b : List Cell),
      (∀ b2 j, j ∈ l → step b2 j = some (b2.set (g j) (v (g j)))) →
      (∀ j ∈ l, g j < b.length) →
      ∃ b', List.foldlM step b l = some b' ∧ b'.length = b.length ∧
        (∀ i, (∀ j ∈ l, i ≠ g j) → b'[i]? = b[i]?) ∧
        (∀ j ∈ l, b'[g j]? = some (v (g j))) := by
  intro l
  induction l with
  | nil =>
    intro b _ _
    exact ⟨b, by simp [List.foldlM_nil], rfl, fun i _ => rfl, by simp⟩
  | cons a l ih =>
    intro b hstep hg
    have hga : g a < b.length := hg a (List.mem_cons_self a l)
    have hlen1 : (b.set (g a) (v (g a))).length = b.length := List.length_set b _ _
    obtain ⟨b', hfold, hblen, hun, hset⟩ := ih (b.set (g a) (v (g a)))
      (fun b2 j hj => hstep b2 j (List.mem_cons_of_mem a hj))
      (fun j hj => by rw [hlen1]; exact hg j (List.mem_cons_of_mem a hj))
    refine ⟨b', ?_, by omega, ?_, ?_⟩
    · rw [List.foldlM_cons, hstep b a (List.mem_cons_self a l)]
      simpa using hfold
    · intro i hi
      rw [hun i (fun j hj => hi j (List.mem_cons_of_mem a hj))]
      rw [List.getElem?_set_ne (Ne.symm (hi a (List.mem_cons_self a l)))]
    · intro j hj
      rcases List.mem_cons.mp hj with heq | hmem
      · by_cases hj2 : ∃ j2 ∈ l, g j = g j2
        · obtain ⟨j2, hj2mem, hgj⟩ := hj2
          rw [hgj]
          exact hset j2 hj2mem
        · push_neg at hj2
          rw [hun (g j) (fun j2 hj2mem hcon => hj2 j2 hj2mem hcon)]
          rw [heq, List.getElem?_set_eq_of_lt _ hga]
      · exact hset j hmem

theorem rowFold_aux (w : World) (o : ℕ → DrawW)
    (hlen : w.cells.length = w.width * w.height) :
    ∀ (xs : List ℕ) (b : List Cell),
      (∀ x ∈ xs, x < w.width) → b.length = w.cells.length →
      ∃ b', List.foldlM (fun b2 x => colFoldW w o x b2) b xs = some b' ∧
        b'.length = b.length ∧
        (∀ i, (∀ x ∈ xs, ∀ y, y < w.height → i ≠ y * w.width + x) → b'[i]? = b[i]?) ∧
        (∀ x ∈ xs, ∀ y, y < w.height →
          b'[y * w.width + x]? = some (stepAtW w o (y * w.width + x))) := by
  intro xs
  induction xs with
  | nil =>
    intro b _ _
    exact ⟨b, by simp [List.foldlM_nil], rfl, fun i _ => rfl, by simp⟩
  | cons a xs ih =>
    intro b hxs hb
    have ha : a < w.width := hxs a (List.mem_cons_self a xs)
    obtain ⟨b1, hfold1, hlen1, hun1, hset1⟩ :=
      setFold_aux (fun y => y * w.width + a) (stepAtW w o)
        (fun b2 y => do
          let c ← w.updateCellW (o (y * w.width + a)) (a : ℤ) (y : ℤ)
          pure (b2.set (y * w.width + a) c))
        (List.range w.height) b
        (fun b2 y hy => by
          simp only [updateCellW_eq_step w o a y ha (List.mem_range.mp hy) hlen]
          rfl)
        (fun y hy => by
          rw [hb]
          exact rowmaj_lt w a y ha (List.mem_range.mp hy) hlen)
    obtain ⟨b', hfold2, hlen2, hun2, hset2⟩ := ih b1
      (fun x hx => hxs x (List.mem_cons_of_mem a hx)) (by omega)
    refine ⟨b', ?_, by omega, ?_, ?_⟩
    · rw [List.foldlM_cons]
      have hcol : colFoldW w o a b = some b1 := hfold1
      rw [hcol]
      simpa using hfold2
    · intro i hi
      rw [hun2 i (fun x hx y hy => hi x (List.mem_cons_of_mem a hx) y hy)]
      exact hun1 i fun y hy =>
        hi a (List.mem_cons_self a xs) y (List.mem_range.mp hy)
    · intro x hx y hy
      have hxw : x < w.width := hxs x hx
      rcases List.mem_cons.mp hx with heq | hmem
      · by_cases hxin : x ∈ xs
        · exact hset2 x hxin y hy
        · rw [hun2 (y * w.width + x) ?nej]
          · rw [heq]
            exact hset1 y (List.mem_range.mpr hy)
          case nej =>
            intro x' hx' y' hy' hcon
            have hx'w : x' < w.width := hxs x' (List.mem_cons_of_mem a hx')
            obtain ⟨hxx, hyy⟩ := rowmaj_inj w.width x x' y y' hxw hx'w hcon
            exact hxin (hxx ▸ hx')
      · exact hset2 x hmem y hy

/-- The buffered sequential loop of `world.rs` succeeds on a well-formed
grid and computes exactly the spec's pure per-cell map of the previous
snapshot. -/
theorem updateW_eq_map (w : World) (o : ℕ → DrawW)
    (hlen : w.cells.length = w.width * w.height) :
    w.updateW o = some (w.updateMapW o) := by
  obtain ⟨b', hfold, hblen, hun, hset⟩ :=
    rowFold_aux w o hlen (List.range w.width) w.cells
      (fun x hx => List.mem_range.mp hx) rfl
  rw [World.updateW, hfold]
  have hcells : b' = (List.range w.cells.length).map fun i => stepAtW w o i := by
    apply List.ext_get?
    intro i
    rw [List.get?_eq_getElem?, List.get?_eq_getElem?]
    by_cases hi : i < w.cells.length
    · have hwpos : 0 < w.width := by
        rcases Nat.eq_zero_or_pos w.width with h0 | h0
        · rw [h0, Nat.zero_mul] at hlen
          omega
        · exact h0
      have hx : i % w.width < w.width := Nat.mod_lt _ hwpos
      have hy : i / w.width < w.height := by
        rw [Nat.div_lt_iff_lt_mul hwpos]
        calc i < w.cells.length := hi
          _ = w.width * w.height := hlen
          _ = w.height * w.width := Nat.mul_comm _ _
      have hidx := hset (i % w.width) (List.mem_range.mpr hx) (i / w.width) hy
      rw [Nat.div_add_mod' i w.width] at hidx
      rw [hidx, List.getElem?_map, List.getElem?_range hi]
      rfl
    · have hle : w.cells.length ≤ i := by omega
      have h1 : b'[i]? = none := List.getElem?_eq_none (by omega)
      have h2 : ((List.range w.cells.length).map fun i => stepAtW w o i)[i]? = none := by
        apply List.getElem?_eq_none
        simpa using hle
      rw [h1, h2]
  rw [hcells]
  rfl

/-- The `main.rs` update written as a pure per-cell map over row-major
indices of the previous snapshot (the spec's formulation). -/
def World.updateMapM (w : World) (o : ℕ → DrawM) : World :=
  { w with
    cells := (List.range w.cells.length).map fun i =>
      w.updateCellM (o i) i (w.cells.getD i default)
    tick := w.tick + 1 }

/-- The iterator pipeline of `main.rs` is literally the pure per-cell map. -/
theorem updateM_eq_map (w : World) (o : ℕ → DrawM) :
    w.updateM o = w.updateMapM o := by
  rw [World.updateM, World.updateMapM]
  congr 1
  apply List.ext_get?
  intro i
  rw [List.get?_eq_getElem?, List.get?_eq_getElem?]
  by_cases hi : i < w.cells.length
  · rw [List.getElem?_map, List.getElem?_map, List.getElem?_enum,
      List.getElem?_range hi, List.getElem?_eq_getElem hi]
    simp only [Option.map_some']
    rw [List.getD_eq_getElem _ _ hi]
  · have h1 : (w.cells.enum.map fun ic => w.updateCellM (o ic.1) ic.1 ic.2)[i]? = none := by
      apply List.getElem?_eq_none
      simpa using by omega
    have h2 : ((List.range w.cells.length).map fun i =>
        w.updateCellM (o i) i (w.cells.getD i default))[i]? = none := by
      apply List.getElem?_eq_none
      simpa using by omega
    rw [h1, h2]

/-! ## Ownership provenance and per-cell invariants of `world.rs` -/

theorem takeoverW_owner (r : ℕ) (c : Cell) :
    ∀ ns : List Cell, (takeoverW r c ns).owner = c.owner ∨
      ∃ n ∈ ns, (takeoverW r c ns).owner = n.owner := by
  intro ns
  induction ns with
  | nil => exact Or.inl rfl
  | cons n rest ih =>
    rw [takeoverW]
    split_ifs with h1 h2
    · exact Or.inr ⟨n, List.mem_cons_self n rest, rfl⟩
    · exact Or.inr ⟨n, List.mem_cons_self n rest, rfl⟩
    · rcases ih with h | ⟨n', hn', he⟩
      · exact Or.inl h
      · exact Or.inr ⟨n', List.mem_cons_of_mem n hn', he⟩

theorem takeoverW_troops_le (r : ℕ) (c : Cell) (hc : c.troops ≤ 65535) :
    ∀ ns : List Cell, (takeoverW r c ns).troops ≤ 65535 := by
  intro ns
  induction ns with
  | nil => exact hc
  | cons n rest ih =>
    rw [takeoverW]
    split_ifs with h1 h2
    · exact asU16fx_le_65535 _
    · exact asU16fx_le_65535 _
    · exact ih

theorem get_mem (w : World) (x y : ℤ) (c : Cell) (h : w.get x y = some c) :
    c ∈ w.cells := by
  rw [World.get] at h
  split_ifs at h
  rw [← List.get?_eq_getElem?] at h
  exact List.get?_mem h

theorem neighborGetsW_length (w : World) (x y : ℤ) : (neighborGetsW w x y).length = 8 := by
  rw [neighborGetsW, neighborOffsets]
  rfl

theorem shuffle_mem (f : Fin 8 → Fin 8) (l : List (Option Cell)) (hl : l.length = 8)
    (e : Cell) (he : e ∈ (shuffleBy f l).reduceOption) : some e ∈ l := by
  rw [List.reduceOption_mem_iff, shuffleBy] at he
  obtain ⟨k, _, heq⟩ := List.mem_map.mp he
  rw [List.getD_eq_getElem l none (by rw [hl]; exact (f k).isLt)] at heq
  rw [← heq]
  exact List.getElem_mem _

/-- Every owner produced by one `world.rs` cell step is `0`, the cell's old
owner, or the owner of some cell of the previous snapshot. -/
theorem cellStepW_owner_cases (w : World) (d : DrawW) (x y : ℤ) (c : Cell) :
    (cellStepW w d x y c).owner = 0 ∨ (cellStepW w d x y c).owner = c.owner ∨
      ∃ n ∈ w.cells, (cellStepW w d x y c).owner = n.owner := by
  simp only [cellStepW]
  set ns := (shuffleBy d.perm (neighborGetsW w x y)).reduceOption with hns
  set c2 := takeoverW d.r (decayW c) ns with hc2
  by_cases h : c2.owner = 0
  · rw [if_pos h]
    exact Or.inl rfl
  · rw [if_neg h]
    rcases takeoverW_owner d.r (decayW c) ns with he | ⟨n, hn, he⟩
    · rw [← hc2] at he
      exact Or.inr (Or.inl he)
    · rw [← hc2] at he
      have hsome : some n ∈ neighborGetsW w x y :=
        shuffle_mem d.perm _ (neighborGetsW_length w x y) n (hns ▸ hn)
      rw [neighborGetsW] at hsome
      obtain ⟨p, _, hp⟩ := List.mem_map.mp hsome
      exact Or.inr (Or.inr ⟨n, get_mem w _ _ n hp, he⟩)

/-- Every cell produced by one `world.rs` cell step satisfies
`owner = 0 → troops = 0` and fits in a `u16`. -/
theorem cellStepW_invariant (w : World) (d : DrawW) (x y : ℤ) (c : Cell) :
    ((cellStepW w d x y c).owner = 0 → (cellStepW w d x y c).troops = 0) ∧
      (cellStepW w d x y c).troops ≤ 65535 := by
  simp only [cellStepW]
  set ns := (shuffleBy d.perm (neighborGetsW w x y)).reduceOption with hns
  set c2 := takeoverW d.r (decayW c) ns with hc2
  by_cases h : c2.owner = 0
  · rw [if_pos h]
    exact ⟨fun _ => rfl, Nat.zero_le _⟩
  · rw [if_neg h]
    refine ⟨fun hcon => absurd hcon h, ?_⟩
    rw [hc2]
    exact takeoverW_troops_le d.r (decayW c) (asU16fx_le_65535 _) ns

theorem updateW_shape (w : World) (o : ℕ → DrawW) (w' : World)
    (h : w.updateW o = some w') :
    ∃ buf, List.foldlM (fun b2 x => colFoldW w o x b2) w.cells (List.range w.width) =
        some buf ∧ w' = { w with cells := buf, tick := w.tick + 1 } := by
  rw [World.updateW] at h
  cases hf : List.foldlM (fun b2 x => colFoldW w o x b2) w.cells (List.range w.width) with
  | none => rw [hf] at h; simp at h
  | some buf =>
    rw [hf] at h
    simp at h
    exact ⟨buf, rfl, h.symm⟩

theorem colFoldW_step_length (w : World) (o : ℕ → DrawW) (x : ℕ) (b b' : List Cell)
    (h : colFoldW w o x b = some b') : b'.length = b.length := by
  rw [colFoldW] at h
  refine foldlM_option_inv _ (fun b2 => b2.length = b.length) ?_ _ b b' h rfl
  intro b2 a b3 hInv hstep
  cases hc : w.updateCellW (o (a * w.width + x)) (x : ℤ) (a : ℤ) with
  | none => rw [hc] at hstep; simp at hstep
  | some cc =>
    rw [hc] at hstep
    simp at hstep
    rw [← hstep, List.length_set]
    exact hInv

theorem updateW_length (w : World) (o : ℕ → DrawW) (w' : World)
    (h : w.updateW o = some w') : w'.cells.length = w.cells.length := by
  obtain ⟨buf, hfold, rfl⟩ := updateW_shape w o w' h
  refine foldlM_option_inv _ (fun b2 => b2.length = w.cells.length) ?_ _ w.cells buf
    hfold rfl
  intro b2 a b3 hInv hcol
  rw [colFoldW_step_length w o a b2 b3 hcol]
  exact hInv

theorem updateW_cells_pred (P : Cell → Prop) (w : World) (o : ℕ → DrawW) (w' : World)
    (h : w.updateW o = some w')
    (hold : ∀ c ∈ w.cells, P c)
    (hstep : ∀ d x y c, w.get x y = some c → P (cellStepW w d x y c)) :
    ∀ c ∈ w'.cells, P c := by
  obtain ⟨buf, hfold, rfl⟩ := updateW_shape w o w' h
  refine foldlM_option_inv _ (fun b2 => ∀ c ∈ b2, P c) ?_ _ w.cells buf hfold hold
  intro b2 a b3 hInv hcol
  rw [colFoldW] at hcol
  refine foldlM_option_inv _ (fun b4 => ∀ c ∈ b4, P c) ?_ _ b2 b3 hcol hInv
  intro b4 yy b5 hInv4 hstep5
  cases hc : w.updateCellW (o (yy * w.width + a)) (a : ℤ) (yy : ℤ) with
  | none => rw [hc] at hstep5; simp at hstep5
  | some cc =>
    rw [hc] at hstep5
    simp at hstep5
    intro c hcmem
    rw [← hstep5] at hcmem
    rcases List.mem_or_eq_of_mem_set hcmem with hmem | rfl
    · exact hInv4 c hmem
    · rw [World.updateCellW] at hc
      cases hg : w.get (a : ℤ) (yy : ℤ) with
      | none => rw [hg] at hc; simp at hc
      | some c0 =>
        rw [hg] at hc
        simp at hc
        rw [← hc]
        exact hstep _ _ _ c0 hg

theorem iterW_pred (P : Cell → Prop)
    (hstep : ∀ (w : World) (d : DrawW) (x y : ℤ) (c : Cell),
      (∀ cc ∈ w.cells, P cc) → w.get x y = some c → P (cellStepW w d x y c)) :
    ∀ (n : ℕ) (os : ℕ → ℕ → DrawW) (w w' : World),
      World.iterW n os w = some w' → (∀ c ∈ w.cells, P c) → ∀ c ∈ w'.cells, P c := by
  intro n
  induction n with
  | zero =>
    intro os w w' h hP
    rw [World.iterW] at h
    cases h
    exact hP
  | succ n ih =>
    intro os w w' h hP
    rw [World.iterW] at h
    cases hu : w.updateW (os n) with
    | none => rw [hu] at h; simp at h
    | some w1 =>
      rw [hu] at h
      simp at h
      exact ih os w1 w' h
        (updateW_cells_pred P w (os n) w1 hu hP fun d x y c hg => hstep w d x y c hP hg)

/-! ## Contender provenance and per-cell invariants of `main.rs` -/

theorem insertByCnt_mem (a b : ℕ × Cell × ℕ) :
    ∀ l : List (ℕ × Cell × ℕ), b ∈ insertByCnt a l ↔ b = a ∨ b ∈ l := by
  intro l
  induction l with
  | nil => simp [insertByCnt]
  | cons hd tl ih =>
    rw [insertByCnt]
    split_ifs with h
    · rw [List.mem_cons, ih, List.mem_cons]
      tauto
    · rw [List.mem_cons, List.mem_cons]

theorem sortByCnt_mem (b : ℕ × Cell × ℕ) :
    ∀ l : List (ℕ × Cell × ℕ), b ∈ sortByCnt l ↔ b ∈ l := by
  intro l
  induction l with
  | nil => simp [sortByCnt]
  | cons hd tl ih =>
    rw [sortByCnt, insertByCnt_mem, ih, List.mem_cons]

theorem getM_mem (w : World) (x y : ℤ) (c : Cell) (h : w.getM x y = some c) :
    c ∈ w.cells := by
  rw [World.getM] at h
  split_ifs at h
  rw [← List.get?_eq_getElem?] at h
  exact List.get?_mem h

theorem neighborsM_mem (w : World) (x y : ℤ) (c : Cell) (h : c ∈ neighborsM w x y) :
    c ∈ w.cells := by
  rw [neighborsM, List.reduceOption_mem_iff] at h
  obtain ⟨p, _, hp⟩ := List.mem_map.mp h
  exact getM_mem w _ _ c hp

/-- Every ranked contender of `main.rs` carries a representative that is one
of the neighbors and belongs to the contender's empire, and its neighbor
count is positive. -/
theorem rankedM_rep (w : World) (d : DrawM) (ns : List Cell) (e : ℕ × Cell × ℕ)
    (h : e ∈ rankedM w d ns) :
    e.2.1 ∈ ns ∧ e.2.1.owner = e.1 ∧ 1 ≤ e.2.2 := by
  rw [rankedM, List.mem_reverse, sortByCnt_mem, contendersM] at h
  obtain ⟨v, hv, hfv⟩ := List.mem_filterMap.mp h
  obtain ⟨je, _, hje⟩ := List.mem_map.mp hv
  cases hrep : v.2.1 with
  | none => rw [hrep] at hfv; simp at hfv
  | some rep =>
    rw [hrep] at hfv
    simp at hfv
    have hv2 : v = (je.2.id, (ns.filter fun v => v.owner == je.2.id)[d.pick
        je.1 % (ns.filter fun v => v.owner == je.2.id).length]?,
        (ns.filter fun v => v.owner == je.2.id).length) := hje.symm
    have hrep2 : (ns.filter fun v => v.owner == je.2.id)[d.pick
        je.1 % (ns.filter fun v => v.owner == je.2.id).length]? = some rep := by
      rw [hv2] at hrep
      exact hrep
    have hrepmem : rep ∈ ns.filter fun v => v.owner == je.2.id := by
      rw [← List.get?_eq_getElem?] at hrep2
      exact List.get?_mem hrep2
    obtain ⟨hrepns, hrepown⟩ := List.mem_filter.mp hrepmem
    have hlenpos : 1 ≤ (ns.filter fun v => v.owner == je.2.id).length :=
      List.length_pos.mpr (List.ne_nil_of_mem hrepmem)
    rw [← hfv, hv2]
    refine ⟨hrepns, ?_, hlenpos⟩
    simpa using hrepown

theorem takeoverM_cases (nf r : ℕ) (c : Cell) :
    ∀ L : List (ℕ × Cell × ℕ), takeoverM nf r c L = c ∨
      ∃ e ∈ L, takeoverM nf r c L =
        { owner := e.1, troops := asU8fx (f32mul (ofNat30 e.2.1.troops) r) } := by
  intro L
  induction L with
  | nil => exact Or.inl rfl
  | cons e rest ih =>
    rw [takeoverM]
    split_ifs with h
    · exact Or.inr ⟨e, List.mem_cons_self e rest, rfl⟩
    · rcases ih with h2 | ⟨e', he', heq⟩
      · exact Or.inl h2
      · exact Or.inr ⟨e', List.mem_cons_of_mem e he', heq⟩

theorem decayM_owner (tick i nf : ℕ) (c : Cell) : (decayM tick i nf c).owner = c.owner := by
  rw [decayM]
  split_ifs <;> rfl

theorem decayM_troops_le255 (tick i nf : ℕ) (c : Cell) (hc : c.troops ≤ 255) :
    (decayM tick i nf c).troops ≤ 255 := by
  rw [decayM]
  split_ifs
  · exact asU8fx_le_255 _
  · exact hc

theorem decayM_troops_zero (tick i nf : ℕ) (c : Cell) (hc : c.troops = 0) :
    (decayM tick i nf c).troops = 0 := by
  rw [decayM]
  split_ifs
  · simp only
    rw [hc, ofNat30_zero, f32mul_zero_left, asU8fx_zero]
  · exact hc

/-- One `main.rs` cell step preserves the cell invariant: assuming every
cell of the previous snapshot has `owner = 0 → troops = 0` and the stepped
cell fits in a `u8`, the new cell satisfies `owner = 0 ↔ troops = 0` and
fits in a `u8`. -/
theorem updateCellM_invariant (w : World) (d : DrawM) (i : ℕ) (c : Cell)
    (hcells : ∀ cc ∈ w.cells, cc.owner = 0 → cc.troops = 0)
    (hcO : c.owner = 0 → c.troops = 0) (hc : c.troops ≤ 255) :
    ((w.updateCellM d i c).owner = 0 ↔ (w.updateCellM d i c).troops = 0) ∧
      (w.updateCellM d i c).troops ≤ 255 := by
  simp only [World.updateCellM]
  set ns := neighborsM w ((i % w.width : ℕ) : ℤ) ((i / w.width : ℕ) : ℤ) with hns
  set nf := friendliesM c ns with hnf
  set c1 := decayM w.tick i nf c with hc1
  set c2 := takeoverM nf d.r c1 (rankedM w d ns) with hc2
  have hc2cases := takeoverM_cases nf d.r c1 (rankedM w d ns)
  rw [← hc2] at hc2cases
  have hc2troops : c2.troops ≤ 255 := by
    rcases hc2cases with he | ⟨e, _, he⟩
    · rw [he]
      exact decayM_troops_le255 _ _ _ _ hc
    · rw [he]
      exact asU8fx_le_255 _
  have hc2zero : c2.owner = 0 → c2.troops = 0 := by
    intro ho
    rcases hc2cases with he | ⟨e, hemem, he⟩
    · rw [he] at ho ⊢
      rw [decayM_owner] at ho
      exact decayM_troops_zero _ _ _ _ (hcO ho)
    · obtain ⟨hrepns, hrepown, _⟩ := rankedM_rep w d ns e hemem
      rw [he] at ho
      simp only at ho
      have hreptroops : e.2.1.troops = 0 :=
        hcells e.2.1 (neighborsM_mem w _ _ _ hrepns) (by rw [hrepown]; exact ho)
      rw [he]
      simp only
      rw [hreptroops, ofNat30_zero, f32mul_zero_left, asU8fx_zero]
  by_cases h0 : c2.troops = 0
  · rw [if_pos h0]
    exact ⟨⟨fun _ => h0, fun _ => rfl⟩, by rw [h0] at hc2troops ⊢; exact hc2troops⟩
  · rw [if_neg h0]
    exact ⟨⟨fun ho => absurd (hc2zero ho) h0, fun ht => absurd ht h0⟩, hc2troops⟩

theorem updateM_mem (w : World) (o : ℕ → DrawM) (c' : Cell)
    (h : c' ∈ (w.updateM o).cells) :
    ∃ i c, w.cells.get? i = some c ∧ c' = w.updateCellM (o i) i c := by
  simp only [World.updateM] at h
  obtain ⟨ic, hic, heq⟩ := List.mem_map.mp h
  exact ⟨ic.1, ic.2, List.mem_enum_iff_get?.mp hic, heq.symm⟩

/-- First-match characterization of the `main.rs` takeover walk: either no
ranked contender satisfies the takeover predicate and the cell is unchanged,
or the list splits around the first contender satisfying it, which captures
the cell. -/
theorem takeoverM_first_match (nf r : ℕ) (c : Cell) :
    ∀ L : List (ℕ × Cell × ℕ),
      ((∀ e ∈ L, ¬((nf < 2 ∨ c.troops < e.2.1.troops) ∧ 1 ≤ e.2.2)) ∧
        takeoverM nf r c L = c) ∨
      (∃ l1 e l2, L = l1 ++ e :: l2 ∧
        (∀ e' ∈ l1, ¬((nf < 2 ∨ c.troops < e'.2.1.troops) ∧ 1 ≤ e'.2.2)) ∧
        ((nf < 2 ∨ c.troops < e.2.1.troops) ∧ 1 ≤ e.2.2) ∧
        takeoverM nf r c L =
          { owner := e.1, troops := asU8fx (f32mul (ofNat30 e.2.1.troops) r) }) := by
  intro L
  induction L with
  | nil => exact Or.inl ⟨by simp, rfl⟩
  | cons e rest ih =>
    rw [takeoverM]
    split_ifs with h
    · refine Or.inr ⟨[], e, rest, rfl, by simp, h, rfl⟩
    · rcases ih with ⟨hall, heq⟩ | ⟨l1, e', l2, hL, hl1, he', heq⟩
      · refine Or.inl ⟨?_, heq⟩
        intro e2 he2
        rcases List.mem_cons.mp he2 with rfl | hmem
        · exact h
        · exact hall e2 hmem
      · refine Or.inr ⟨e :: l1, e', l2, by rw [hL]; rfl, ?_, he', heq⟩
        intro e2 he2
        rcases List.mem_cons.mp he2 with rfl | hmem
        · exact h
        · exact hl1 e2 hmem

/-! ## The claims -/

/-- Claim C1 (amended): after `world.rs`'s `World::update` on a well-formed
grid, every cell satisfies `owner = 0 → troops = 0` and `troops ≤ 65535`
(the converse direction of the spec's `owner == 0 ⇔ troops == 0` can fail
there, see the counterexample); after `main.rs`'s `World::update` on a grid
whose cells satisfy the invariant `owner = 0 → troops = 0` and fit in a
`u8`, every cell satisfies the full `owner = 0 ↔ troops = 0` and
`troops ≤ 255`. -/
theorem claim_C1 (w u : World) (o : ℕ → DrawW) (o2 : ℕ → DrawM) (w' : World)
    (hlen : w.cells.length = w.width * w.height)
    (hupd : w.updateW o = some w')
    (huInv : ∀ c ∈ u.cells, (c.owner = 0 → c.troops = 0) ∧ c.troops ≤ 255) :
    (∀ c ∈ w'.cells, (c.owner = 0 → c.troops = 0) ∧ c.troops ≤ 65535) ∧
      ∀ c ∈ (u.updateM o2).cells, (c.owner = 0 ↔ c.troops = 0) ∧ c.troops ≤ 255 := by
  constructor
  · rw [updateW_eq_map w o hlen] at hupd
    injection hupd with h2
    rw [← h2]
    simp only [World.updateMapW]
    intro c hc
    obtain ⟨i, _, rfl⟩ := List.mem_map.mp hc
    simp only [stepAtW]
    exact cellStepW_invariant w (o i) _ _ _
  · intro c hc
    obtain ⟨i, cc, hget, rfl⟩ := updateM_mem u o2 c hc
    have hmem := List.get?_mem hget
    exact updateCellM_invariant u (o2 i) i cc (fun d hd => (huInv d hd).1)
      ((huInv cc hmem).1) ((huInv cc hmem).2)

/-- Claim C1 counterexample: on the 1×1 grid holding the cell `⟨1, 1⟩`
(which satisfies the invariant and fits in a `u16`), `world.rs`'s update
with the admissible draw `0.98` produces the cell `⟨1, 0⟩`: owned with zero
troops, refuting `owner == 0 ⇔ troops == 0` after the update. -/
theorem claim_C1_counterexample :
    World.updateW { cells := [⟨1, 1⟩], width := 1, height := 1, empires := [], tick := 0 }
        (fun _ => ⟨id, c098fx⟩) =
      some { cells := [⟨1, 0⟩], width := 1, height := 1, empires := [], tick := 1 } ∧
    ¬(((⟨1, 0⟩ : Cell).owner = 0) ↔ ((⟨1, 0⟩ : Cell).troops = 0)) ∧
    (((⟨1, 1⟩ : Cell).owner = 0 ↔ (⟨1, 1⟩ : Cell).troops = 0) ∧
      (⟨1, 1⟩ : Cell).troops ≤ 65535) := by
  refine ⟨by decide, by decide, by decide⟩

/-- A `main.rs`-style world for the C1 witness: one owned cell, invariant
satisfied. -/
def worldC1u : World :=
  { cells := [⟨1, 7⟩], width := 1, height := 1, empires := [⟨1, (255, 0, 0, 255)⟩], tick := 0 }

theorem claim_C1_witness :
    ((World.new 1 1).cells.length = (World.new 1 1).width * (World.new 1 1).height ∧
      (World.new 1 1).updateW (fun _ => ⟨id, c098fx⟩) =
        some { cells := [⟨0, 0⟩], width := 1, height := 1, empires := [], tick := 1 } ∧
      (∀ c ∈ worldC1u.cells, (c.owner = 0 → c.troops = 0) ∧ c.troops ≤ 255)) ∧
    ((∀ c ∈ ({ cells := [⟨0, 0⟩], width := 1, height := 1, empires := [], tick := 1 } :
          World).cells, (c.owner = 0 → c.troops = 0) ∧ c.troops ≤ 65535) ∧
      ∀ c ∈ (worldC1u.updateM fun _ => ⟨fun _ => 0, c098fx⟩).cells,
        (c.owner = 0 ↔ c.troops = 0) ∧ c.troops ≤ 255) := by
  have hupd : (World.new 1 1).updateW (fun _ => ⟨id, c098fx⟩) =
      some { cells := [⟨0, 0⟩], width := 1, height := 1, empires := [], tick := 1 } := by
    decide
  exact ⟨⟨by decide, hupd, by decide⟩,
    claim_C1 (World.new 1 1) worldC1u (fun _ => ⟨id, c098fx⟩)
      (fun _ => ⟨fun _ => 0, c098fx⟩) _ (by decide) hupd (by decide)⟩

/-- Claim C2 (amended): in the `main.rs` engine, decay is applied exactly on
generations with `(tick + i) % 5 == 0`; when applied it scales troops by the
`f32` factor `0.1 * friendlies`, so it never increases troops (and never
goes negative — the result is a natural number bounded by the old value),
wipes an unsupported cell (zero friendlies) to the floor `0`, and is weaker
the more friendly neighbors support the cell; on non-selected generations
the troops enter the takeover phase unchanged.  (The `world.rs` engine
instead decays unconditionally by the fixed factor `0.95`, see the
counterexample.) -/
theorem claim_C2 (tick i nf a b : ℕ) (c : Cell) (hnf : nf ≤ 8) (hab : a ≤ b)
    (hb : b ≤ 8) (ht : c.troops ≤ 255) :
    ((tick + i) % 5 ≠ 0 → decayM tick i nf c = c) ∧
      (decayM tick i nf c).troops ≤ c.troops ∧
      ((tick + i) % 5 = 0 → (decayM tick i 0 c).troops = 0) ∧
      (decayM tick i a c).troops ≤ (decayM tick i b c).troops :=
  ⟨decayM_not_selected tick i nf c,
    decayM_troops_le tick i nf c hnf (by omega),
    decayM_zero_friendlies tick i c,
    decayM_troops_mono tick i a b c hab hb (by omega)⟩

theorem claim_C2_witness :
    ((3 : ℕ) ≤ 8 ∧ (1 : ℕ) ≤ 4 ∧ (4 : ℕ) ≤ 8 ∧ (⟨1, 100⟩ : Cell).troops ≤ 255) ∧
      (((0 + 1) % 5 ≠ 0 → decayM 0 1 3 ⟨1, 100⟩ = ⟨1, 100⟩) ∧
        (decayM 0 1 3 ⟨1, 100⟩).troops ≤ (⟨1, 100⟩ : Cell).troops ∧
        ((0 + 1) % 5 = 0 → (decayM 0 1 0 ⟨1, 100⟩).troops = 0) ∧
        (decayM 0 1 1 ⟨1, 100⟩).troops ≤ (decayM 0 1 4 ⟨1, 100⟩).troops) :=
  ⟨by decide, claim_C2 0 1 3 1 4 ⟨1, 100⟩ (by decide) (by decide) (by decide) (by decide)⟩

/-- A 3×3 grid for the C2 counterexample: the focal cell `(1,1)` holds
`⟨1, 100⟩` and is fully supported by eight friendly `⟨1, 50⟩` neighbors. -/
def worldC2a : World :=
  { cells := [⟨1, 50⟩, ⟨1, 50⟩, ⟨1, 50⟩, ⟨1, 50⟩, ⟨1, 100⟩, ⟨1, 50⟩, ⟨1, 50⟩, ⟨1, 50⟩, ⟨1, 50⟩]
    width := 3, height := 3, empires := [], tick := 0 }

/-- The same grid at generation 2 (so that `(tick + i) % 5 ≠ 0` again for
the focal index `i = 4`). -/
def worldC2b : World :=
  { worldC2a with tick := 2 }

/-- Claim C2 counterexample: in `world.rs`'s update the focal cell's troops
drop from `100` to `95` (and its owner is unchanged, so no capture explains
the drop) at both tick `0` and tick `2`, although `(0 + 4) % 5 ≠ 0` and
`(2 + 4) % 5 ≠ 0`: decay is applied on generations the periodic condition
does not select, with a fixed factor although the cell has eight friendly
neighbors. -/
theorem claim_C2_counterexample :
    ((worldC2a.updateW fun _ => ⟨id, c098fx⟩).map fun w => w.cells.getD 4 default) =
        some ⟨1, 95⟩ ∧
      (0 + 4) % 5 ≠ 0 ∧ worldC2a.cells.getD 4 default = ⟨1, 100⟩ ∧
      ((worldC2b.updateW fun _ => ⟨id, c098fx⟩).map fun w => w.cells.getD 4 default) =
        some ⟨1, 95⟩ ∧
      (2 + 4) % 5 ≠ 0 ∧ worldC2b.cells.getD 4 default = ⟨1, 100⟩ := by
  refine ⟨by decide, by decide, by decide, by decide, by decide, by decide⟩

/-- Claim C3 (amended): in the `main.rs` engine, walking the count-ranked
contender list, the cell is captured by the *first* contender satisfying
`(friendlies < 2 ∨ rep.troops > troops) ∧ count ≥ 1` — owner becomes that
empire's id and troops the representative's troops scaled by the random
multiplier — and contenders before it do not fire; if no contender
satisfies it, the cell is unchanged by the takeover.  (In the `world.rs`
engine the friendly-count clause does not exist: capture requires a
neighbor's troops to exceed the cell's current troops, see the
counterexample.) -/
theorem claim_C3 (nf r : ℕ) (c : Cell) (L : List (ℕ × Cell × ℕ)) :
    ((∀ e ∈ L, ¬((nf < 2 ∨ c.troops < e.2.1.troops) ∧ 1 ≤ e.2.2)) ∧
      takeoverM nf r c L = c) ∨
    (∃ l1 e l2, L = l1 ++ e :: l2 ∧
      (∀ e' ∈ l1, ¬((nf < 2 ∨ c.troops < e'.2.1.troops) ∧ 1 ≤ e'.2.2)) ∧
      ((nf < 2 ∨ c.troops < e.2.1.troops) ∧ 1 ≤ e.2.2) ∧
      takeoverM nf r c L =
        { owner := e.1, troops := asU8fx (f32mul (ofNat30 e.2.1.troops) r) }) :=
  takeoverM_first_match nf r c L

/-- A 3×3 grid for the C3 counterexample: the focal cell `(1,1)` holds
`⟨1, 200⟩` with zero friendly neighbors; empire `2` contends with all eight
neighbors `⟨2, 50⟩`. -/
def worldC3 : World :=
  { cells := [⟨2, 50⟩, ⟨2, 50⟩, ⟨2, 50⟩, ⟨2, 50⟩, ⟨1, 200⟩, ⟨2, 50⟩, ⟨2, 50⟩, ⟨2, 50⟩, ⟨2, 50⟩]
    width := 3, height := 3, empires := [], tick := 0 }

/-- Claim C3 counterexample: the focal cell of `worldC3` has zero friendly
neighbors (fewer than 2) and a contending empire `2` present on all eight
neighbors, so the claimed predicate demands a capture; yet `world.rs`'s
update leaves the owner at `1` (troops only decay to `190`): the engine's
capture condition has no friendly-count clause. -/
theorem claim_C3_counterexample :
    ((worldC3.updateW fun _ => ⟨id, c098fx⟩).map fun w => w.cells.getD 4 default) =
        some ⟨1, 190⟩ ∧
      ((neighborGetsW worldC3 1 1).reduceOption.countP fun v => v.owner == 1) = 0 ∧
      ((neighborGetsW worldC3 1 1).reduceOption.countP fun v => v.owner == 2) = 8 ∧
      (worldC3.cells.getD 4 default).owner = 1 ∧
      (worldC3.cells.getD 4 default).troops = 200 := by
  refine ⟨by decide, by decide, by decide, by decide, by decide⟩

/-- Claim C4: the update engine is equivalent to a pure per-cell map over the
previous snapshot: with the same draws, the buffered sequential loop of
`world.rs` computes exactly `updateMapW` (each new cell a function of the
old cells only — no transition reads an already-updated neighbor), and the
iterator-based `main.rs` update equals `updateMapM`. -/
theorem claim_C4 (w u : World) (o : ℕ → DrawW) (o2 : ℕ → DrawM)
    (hlen : w.cells.length = w.width * w.height) :
    w.updateW o = some (w.updateMapW o) ∧ u.updateM o2 = u.updateMapM o2 :=
  ⟨updateW_eq_map w o hlen, updateM_eq_map u o2⟩

theorem claim_C4_witness :
    (World.new 1 1).cells.length = (World.new 1 1).width * (World.new 1 1).height ∧
      ((World.new 1 1).updateW (fun _ => ⟨id, c098fx⟩) =
          some ((World.new 1 1).updateMapW fun _ => ⟨id, c098fx⟩) ∧
        (World.new 1 1).updateM (fun _ => ⟨fun _ => 0, c098fx⟩) =
          (World.new 1 1).updateMapM fun _ => ⟨fun _ => 0, c098fx⟩) :=
  ⟨by decide, claim_C4 (World.new 1 1) (World.new 1 1) (fun _ => ⟨id, c098fx⟩)
    (fun _ => ⟨fun _ => 0, c098fx⟩) (by decide)⟩

/-- Claim C5: starting from a grid in which exactly one empire `e` owns
exactly one cell (index `j`) and every other cell is unclaimed with
`max_troops = 65535` troops, any number of `world.rs` updates only ever
produces owners `0` or `e`. -/
theorem claim_C5 (e t j n : ℕ) (w : World) (os : ℕ → ℕ → DrawW) (w' : World)
    (he : e ≠ 0)
    (hj : w.cells.get? j = some ⟨e, t⟩)
    (hother : ∀ k, k < w.cells.length → k ≠ j → w.cells.get? k = some ⟨0, 65535⟩)
    (hiter : World.iterW n os w = some w') :
    ∀ c ∈ w'.cells, c.owner = 0 ∨ c.owner = e := by
  refine iterW_pred (fun c => c.owner = 0 ∨ c.owner = e) ?step n os w w' hiter ?start
  case start =>
    intro c hc
    obtain ⟨k, hk⟩ := List.mem_iff_get?.mp hc
    by_cases hkj : k = j
    · rw [hkj, hj] at hk
      injection hk with hk2
      rw [← hk2]
      exact Or.inr rfl
    · have hklen : k < w.cells.length := by
        by_contra hcon
        rw [List.get?_len_le (by omega)] at hk
        exact Option.noConfusion hk
      rw [hother k hklen hkj] at hk
      injection hk with hk2
      rw [← hk2]
      exact Or.inl rfl
  case step =>
    intro w2 d x y c hall hg
    rcases cellStepW_owner_cases w2 d x y c with h | h | ⟨nn, hnn, h⟩
    · rw [h]
      exact Or.inl rfl
    · rw [h]
      exact hall c (get_mem w2 x y c hg)
    · rw [h]
      exact hall nn hnn

/-- The start grid of the C5 witness: empire `1` owns cell `0`, the other
cell is unclaimed at full `u16` troops. -/
def worldC5 : World :=
  { cells := [⟨1, 7⟩, ⟨0, 65535⟩], width := 2, height := 1, empires := [], tick := 0 }

theorem claim_C5_witness :
    ((1 : ℕ) ≠ 0 ∧
      worldC5.cells.get? 0 = some ⟨1, 7⟩ ∧
      (∀ k, k < worldC5.cells.length → k ≠ 0 → worldC5.cells.get? k = some ⟨0, 65535⟩) ∧
      World.iterW 1 (fun _ _ => ⟨id, c098fx⟩) worldC5 =
        some { cells := [⟨0, 0⟩, ⟨0, 0⟩], width := 2, height := 1, empires := [], tick := 1 }) ∧
    ∀ c ∈ ({ cells := [⟨0, 0⟩, ⟨0, 0⟩], width := 2, height := 1, empires := [], tick := 1 } :
        World).cells, c.owner = 0 ∨ c.owner = 1 := by
  have hit : World.iterW 1 (fun _ _ => ⟨id, c098fx⟩) worldC5 =
      some { cells := [⟨0, 0⟩, ⟨0, 0⟩], width := 2, height := 1, empires := [], tick := 1 } := by
    decide
  exact ⟨⟨by decide, by decide, by decide, hit⟩,
    claim_C5 1 7 0 1 worldC5 (fun _ _ => ⟨id, c098fx⟩) _ (by decide) (by decide)
      (by decide) hit⟩

/-- Claim C6 (amended): under the toroidal policy of `world.rs`, for every
grid with positive dimensions satisfying the size invariant, `get(x, y)`
returns `Some` of the cell at row-major index
`(y.rem_euclid(height)) * width + x.rem_euclid(width)` for *all* integer
coordinates, including negative and out-of-range ones.  (For a grid with a
zero dimension `rem_euclid` panics instead of returning a cell, see the
counterexample.) -/
theorem claim_C6 (w : World) (x y : ℤ) (hw : 0 < w.width) (hh : 0 < w.height)
    (hlen : w.cells.length = w.width * w.height) :
    w.get x y = some (w.cells.getD
      ((y % (w.height : ℤ)).toNat * w.width + (x % (w.width : ℤ)).toNat) default) := by
  have hxm : (x % (w.width : ℤ)).toNat < w.width := by
    have h1 : 0 ≤ x % (w.width : ℤ) :=
      Int.emod_nonneg x (Int.natCast_ne_zero.mpr hw.ne')
    have h2 : x % (w.width : ℤ) < (w.width : ℤ) :=
      Int.emod_lt_of_pos x (by exact_mod_cast hw)
    omega
  have hym : (y % (w.height : ℤ)).toNat < w.height := by
    have h1 : 0 ≤ y % (w.height : ℤ) :=
      Int.emod_nonneg y (Int.natCast_ne_zero.mpr hh.ne')
    have h2 : y % (w.height : ℤ) < (w.height : ℤ) :=
      Int.emod_lt_of_pos y (by exact_mod_cast hh)
    omega
  have hidx := rowmaj_lt w _ _ hxm hym hlen
  rw [World.get, if_neg (by omega), List.getElem?_eq_getElem hidx,
    List.getD_eq_getElem _ _ hidx]

/-- Claim C6 counterexample: on the grid `new(0, 1)` (width zero), `get(0, 0)`
does not return a cell — in Rust, `rem_euclid(0)` panics — refuting
"always returns a cell for every grid". -/
theorem claim_C6_counterexample : (World.new 0 1).get 0 0 = none := by decide

theorem claim_C6_witness :
    (0 < (World.new 2 2).width ∧ 0 < (World.new 2 2).height ∧
      (World.new 2 2).cells.length = (World.new 2 2).width * (World.new 2 2).height) ∧
    (World.new 2 2).get (-1) 5 = some ((World.new 2 2).cells.getD
      (((5 : ℤ) % ((World.new 2 2).height : ℤ)).toNat * (World.new 2 2).width +
        ((-1 : ℤ) % ((World.new 2 2).width : ℤ)).toNat) default) :=
  ⟨⟨by decide, by decide, by decide⟩,
    claim_C6 (World.new 2 2) (-1) 5 (by decide) (by decide) (by decide)⟩

/-- Claim C7: the invariant `cells.len() == width * height` is established by
`World::new(width, height)` and preserved by `World::update` and by
`World::set` (whenever they return a new state rather than panicking). -/
theorem claim_C7 (wd ht : ℕ) (w u : World) (o : ℕ → DrawW) (w' u' : World)
    (x y : ℤ) (v : Cell)
    (hw : w.cells.length = w.width * w.height) (hupd : w.updateW o = some w')
    (hu : u.cells.length = u.width * u.height) (hset : u.set x y v = some u') :
    (World.new wd ht).cells.length = (World.new wd ht).width * (World.new wd ht).height ∧
      w'.cells.length = w'.width * w'.height ∧
      u'.cells.length = u'.width * u'.height := by
  refine ⟨by simp [World.new], ?_, ?_⟩
  · have h1 := updateW_length w o w' hupd
    obtain ⟨buf, _, rfl⟩ := updateW_shape w o w' hupd
    exact h1.trans hw
  · rw [World.set] at hset
    split_ifs at hset with h1 h2
    · injection hset with hset2
      rw [← hset2]
      simpa [List.length_set] using hu

theorem claim_C7_witness :
    ((World.new 2 1).cells.length = (World.new 2 1).width * (World.new 2 1).height ∧
      (World.new 2 1).updateW (fun _ => ⟨id, c098fx⟩) =
        some { cells := [⟨0, 0⟩, ⟨0, 0⟩], width := 2, height := 1, empires := [], tick := 1 } ∧
      (World.new 2 1).set 1 0 ⟨1, 5⟩ =
        some { cells := [⟨0, 0⟩, ⟨1, 5⟩], width := 2, height := 1, empires := [], tick := 0 }) ∧
    ((World.new 3 4).cells.length = (World.new 3 4).width * (World.new 3 4).height ∧
      ({ cells := [⟨0, 0⟩, ⟨0, 0⟩], width := 2, height := 1, empires := [], tick := 1 } :
        World).cells.length = 2 * 1 ∧
      ({ cells := [⟨0, 0⟩, ⟨1, 5⟩], width := 2, height := 1, empires := [], tick := 0 } :
        World).cells.length = 2 * 1) := by
  have hupd : (World.new 2 1).updateW (fun _ => ⟨id, c098fx⟩) =
      some { cells := [⟨0, 0⟩, ⟨0, 0⟩], width := 2, height := 1, empires := [], tick := 1 } := by
    decide
  have hset : (World.new 2 1).set 1 0 ⟨1, 5⟩ =
      some { cells := [⟨0, 0⟩, ⟨1, 5⟩], width := 2, height := 1, empires := [], tick := 0 } := by
    decide
  have h := claim_C7 3 4 (World.new 2 1) (World.new 2 1) (fun _ => ⟨id, c098fx⟩) _ _ 1 0
    ⟨1, 5⟩ (by decide) hupd (by decide) hset
  exact ⟨⟨by decide, hupd, hset⟩, h.1, h.2.1, h.2.2⟩

/-- Claim C8: one call to the update engine increments the generation counter
by exactly one — for the `world.rs` update (whenever it returns a state) and
for the `main.rs` update. -/
theorem claim_C8 (w u : World) (o : ℕ → DrawW) (o2 : ℕ → DrawM) (w' : World)
    (h : w.updateW o = some w') :
    w'.tick = w.tick + 1 ∧ (u.updateM o2).tick = u.tick + 1 := by
  obtain ⟨buf, _, rfl⟩ := updateW_shape w o w' h
  exact ⟨rfl, rfl⟩

theorem claim_C8_witness :
    (World.new 1 1).updateW (fun _ => ⟨id, c098fx⟩) =
        some { cells := [⟨0, 0⟩], width := 1, height := 1, empires := [], tick := 1 } ∧
      ({ cells := [⟨0, 0⟩], width := 1, height := 1, empires := [], tick := 1 } :
        World).tick = (World.new 1 1).tick + 1 ∧
      ((World.new 1 1).updateM fun _ => ⟨fun _ => 0, c098fx⟩).tick = (World.new 1 1).tick + 1 := by
  have h : (World.new 1 1).updateW (fun _ => ⟨id, c098fx⟩) =
      some { cells := [⟨0, 0⟩], width := 1, height := 1, empires := [], tick := 1 } := by
    decide
  have h2 := claim_C8 (World.new 1 1) (World.new 1 1) (fun _ => ⟨id, c098fx⟩)
    (fun _ => ⟨fun _ => 0, c098fx⟩) _ h
  exact ⟨h, h2.1, h2.2⟩

/-- Claim C9: `set(x, y, cell)` fails fast (panics) exactly when `(x, y)` lies
outside `[0, width) × [0, height)`, and for in-range coordinates it writes
the given cell at row-major index `y * width + x`, leaving every other
component of the state unchanged.  (On the panic path nothing has been
written: the asserts precede the write.) -/
theorem claim_C9 (w : World) (x y : ℤ) (v : Cell)
    (hlen : w.cells.length = w.width * w.height) :
    (w.set x y v = none ↔
      ¬(0 ≤ x ∧ x < (w.width : ℤ) ∧ 0 ≤ y ∧ y < (w.height : ℤ))) ∧
    ((0 ≤ x ∧ x < (w.width : ℤ) ∧ 0 ≤ y ∧ y < (w.height : ℤ)) →
      w.set x y v =
        some { w with cells := w.cells.set (y.toNat * w.width + x.toNat) v }) := by
  have hidx : (0 ≤ x ∧ x < (w.width : ℤ) ∧ 0 ≤ y ∧ y < (w.height : ℤ)) →
      y.toNat * w.width + x.toNat < w.cells.length := by
    rintro ⟨hx0, hxw, hy0, hyh⟩
    have hx : x.toNat < w.width := by omega
    have hy : y.toNat < w.height := by omega
    exact rowmaj_lt w x.toNat y.toNat hx hy hlen
  constructor
  · rw [World.set]
    split_ifs with h1 h2
    · simp [h1]
    · exact absurd (hidx h1) h2
    · simp [h1]
  · intro h1
    rw [World.set, if_pos h1, if_pos (hidx h1)]

theorem claim_C9_witness :
    (World.new 2 2).cells.length = (World.new 2 2).width * (World.new 2 2).height ∧
      (((World.new 2 2).set 1 0 ⟨2, 9⟩ = none ↔
        ¬(0 ≤ (1 : ℤ) ∧ (1 : ℤ) < ((World.new 2 2).width : ℤ) ∧ 0 ≤ (0 : ℤ) ∧
          (0 : ℤ) < ((World.new 2 2).height : ℤ))) ∧
      ((0 ≤ (1 : ℤ) ∧ (1 : ℤ) < ((World.new 2 2).width : ℤ) ∧ 0 ≤ (0 : ℤ) ∧
          (0 : ℤ) < ((World.new 2 2).height : ℤ)) →
        (World.new 2 2).set 1 0 ⟨2, 9⟩ = some { World.new 2 2 with
          cells := (World.new 2 2).cells.set ((0 : ℤ).toNat * (World.new 2 2).width +
            (1 : ℤ).toNat) ⟨2, 9⟩ })) :=
  ⟨by decide, claim_C9 (World.new 2 2) 1 0 ⟨2, 9⟩ (by decide)⟩

/-- Claim C10: the update engine modifies only the cell sequence and the tick
counter: width, height and the empire list are identical before and after —
for the `world.rs` update (whenever it returns a state) and for the
`main.rs` update. -/
theorem claim_C10 (w u : World) (o : ℕ → DrawW) (o2 : ℕ → DrawM) (w' : World)
    (h : w.updateW o = some w') :
    (w'.width = w.width ∧ w'.height = w.height ∧ w'.empires = w.empires) ∧
      ((u.updateM o2).width = u.width ∧ (u.updateM o2).height = u.height ∧
        (u.updateM o2).empires = u.empires) := by
  obtain ⟨buf, _, rfl⟩ := updateW_shape w o w' h
  exact ⟨⟨rfl, rfl, rfl⟩, rfl, rfl, rfl⟩

theorem claim_C10_witness :
    (World.new 1 1).updateW (fun _ => ⟨id, c098fx⟩) =
        some { cells := [⟨0, 0⟩], width := 1, height := 1, empires := [], tick := 1 } ∧
      (({ cells := [⟨0, 0⟩], width := 1, height := 1, empires := [], tick := 1 } :
          World).width = (World.new 1 1).width ∧
        ({ cells := [⟨0, 0⟩], width := 1, height := 1, empires := [], tick := 1 } :
          World).height = (World.new 1 1).height ∧
        ({ cells := [⟨0, 0⟩], width := 1, height := 1, empires := [], tick := 1 } :
          World).empires = (World.new 1 1).empires) ∧
      (((World.new 1 1).updateM fun _ => ⟨fun _ => 0, c098fx⟩).width = (World.new 1 1).width ∧
        ((World.new 1 1).updateM fun _ => ⟨fun _ => 0, c098fx⟩).height =
          (World.new 1 1).height ∧
        ((World.new 1 1).updateM fun _ => ⟨fun _ => 0, c098fx⟩).empires =
          (World.new 1 1).empires) := by
  have h : (World.new 1 1).updateW (fun _ => ⟨id, c098fx⟩) =
      some { cells := [⟨0, 0⟩], width := 1, height := 1, empires := [], tick := 1 } := by
    decide
  have h2 := claim_C10 (World.new 1 1) (World.new 1 1) (fun _ => ⟨id, c098fx⟩)
    (fun _ => ⟨fun _ => 0, c098fx⟩) _ h
  exact ⟨h, h2.1, h2.2⟩
